import Mathlib

/-!
Verification of the DOCX-to-Asana checklist converter.

Shallow embedding of the repository's core logic:
* `src/utils/validator.py` — `sanitize_string`
* `src/document_parser.py` — style/text matching, products-section search,
  product-type extraction
* `src/csv_generator.py` — row flattening and CSV generation

Strings are modelled as `List Char`.  The configuration file `config.json`
is absent from the repository, so every `config.get` call falls back to the
defaults written in the source; those defaults are inlined here.
-/

namespace Docx2Asana

/-- Whitespace class used by Python's `\s` regex and `str.strip` on the
ASCII range: space, tab, newline, carriage return, vertical tab, form feed. -/
def isWS (c : Char) : Bool :=
  c = ' ' || c = '\t' || c = '\n' || c = '\r' || c = '\x0b' || c = '\x0c'

/-- Lowercasing of a string, as Python's `str.lower` on the ASCII range. -/
def lower (s : List Char) : List Char := s.map Char.toLower

/-- Python's `str.strip()`: drop leading and trailing whitespace. -/
def strip (s : List Char) : List Char :=
  ((s.dropWhile isWS).reverse.dropWhile isWS).reverse

/-- Python's substring test `needle in hay`. -/
def containsSub (needle hay : List Char) : Bool :=
  hay.tails.any (fun t => needle.isPrefixOf t)

/-- State-passing version of `re.sub(r"\s+", " ", text)`: every maximal run
of whitespace becomes a single space.  The flag records whether the previous
character was part of a whitespace run already replaced. -/
def collapseAux : Bool → List Char → List Char
  | _, [] => []
  | prev, c :: cs =>
    if isWS c then
      if prev then collapseAux true cs else ' ' :: collapseAux true cs
    else
      c :: collapseAux false cs

/-- The `text.replace('"', '""')` step of `sanitize_string`. -/
def escQ (s : List Char) : List Char :=
  s.flatMap (fun c => if c = '"' then ['"', '"'] else [c])

/-- `sanitize_string` from `src/utils/validator.py`: empty in, empty out;
otherwise collapse whitespace runs to single spaces, double every literal
quote, and strip the ends. -/
def sanitize (s : List Char) : List Char :=
  if s = [] then [] else strip (escQ (collapseAux false s))

/-- The four heading roles of `src/document_parser.py`. -/
inductive StyleRole
  | sect
  | product_type
  | manufacturer
  | description
deriving DecidableEq

/-- Default `document.heading_styles` configuration. -/
def headingStyles : StyleRole → List Char
  | .sect => "Heading 1".toList
  | .product_type => "Heading 2".toList
  | .manufacturer => "Heading 3".toList
  | .description => "Heading 4".toList

/-- Default `document.heading_style_variations` configuration. -/
def styleVariations : StyleRole → List (List Char)
  | .sect => ["heading 1".toList, "title 1".toList, "h1".toList,
      "header 1".toList, "section".toList]
  | .product_type => ["heading 2".toList, "title 2".toList, "h2".toList,
      "header 2".toList, "subsection".toList]
  | .manufacturer => ["heading 3".toList, "title 3".toList, "h3".toList,
      "header 3".toList]
  | .description => ["heading 4".toList, "title 4".toList, "h4".toList,
      "header 4".toList]

/-- Default `document.products_heading_variations` configuration. -/
def productsHeadingVariations : List (List Char) :=
  ["products".toList, "product list".toList, "products and services".toList,
   "product information".toList, "product specs".toList,
   "product specifications".toList]

/-- Default `document.manufacturer_headings`, lowercased as in
`DocumentParser.__init__`. -/
def manufacturerHeadingVariations : List (List Char) :=
  [lower "Manufacturer".toList, lower "Manufacturers".toList]

/-- `DocumentParser._is_style_match`: empty style never matches; otherwise a
case-insensitive equality with the nominal label, or containment of any
configured variant substring in the lowercased style name. -/
def isStyleMatch (styleName : List Char) (role : StyleRole) : Bool :=
  if styleName = [] then false
  else if lower styleName = lower (headingStyles role) then true
  else (styleVariations role).any (fun v => containsSub v (lower styleName))

/-- `DocumentParser._is_text_match`: empty text never matches; otherwise a
substring containment test of any variation in the stripped, lowercased
text. -/
def isTextMatch (text : List Char) (variations : List (List Char)) : Bool :=
  if text = [] then false
  else variations.any (fun v => containsSub v (lower (strip text)))

/-- One source paragraph: plain text plus a style label. -/
structure Para where
  text : List Char
  style : List Char
deriving DecidableEq

/-- The products-section marker found by `_find_products_section`. -/
structure SectionMarker where
  index : Nat
  text : List Char
deriving DecidableEq

/-- A paragraph counted by `_find_products_section`: style matches the
section role and text matches the products-caption vocabulary. -/
def qualifies (p : Para) : Bool :=
  isStyleMatch p.style .sect && isTextMatch p.text productsHeadingVariations

/-- Loop of `_find_products_section`: `i` is the index of the next
paragraph, `cnt` the number of qualifying paragraphs seen so far; the
marker is the paragraph that brings the count to 2. -/
def findAux : Nat → Nat → List Para → Option SectionMarker
  | _, _, [] => none
  | i, cnt, p :: ps =>
    if qualifies p then
      if cnt + 1 = 2 then some ⟨i, strip p.text⟩
      else findAux (i + 1) (cnt + 1) ps
    else findAux (i + 1) cnt ps

/-- `DocumentParser._find_products_section`. -/
def findProductsSection (paras : List Para) : Option SectionMarker :=
  findAux 0 0 paras

/-- A manufacturer node: name plus ordered description lines. -/
structure Manufacturer where
  name : List Char
  descriptions : List (List Char)
deriving DecidableEq

/-- A product-type node: name plus ordered manufacturers. -/
structure ProductType where
  name : List Char
  manufacturers : List Manufacturer
deriving DecidableEq

/-- The product type currently being built during `_extract_product_types`:
its name, the manufacturers already closed, and the currently open
manufacturer (Python's `current_manufacturer`, which is always the last
one appended to the current product type). -/
structure OpenPT where
  name : List Char
  closed : List Manufacturer
  curMan : Option Manufacturer
deriving DecidableEq

/-- Flush the product type under construction into the output list. -/
def closePT : Option OpenPT → List ProductType
  | none => []
  | some o => [⟨o.name, o.closed ++ o.curMan.toList⟩]

/-- Python's `current_manufacturer is not None`. -/
def manOpen : Option OpenPT → Bool
  | none => false
  | some o => o.curMan.isSome

/-- Loop body of `_extract_product_types` over the paragraphs after the
marker.  The branches mirror the `if`/`elif` chain of the source: exact
equality with the nominal section label breaks the loop; a product-type
style opens a new product type; a manufacturer style with an open product
type opens a manufacturer only when the text matches the manufacturer
vocabulary; a description style with an open manufacturer appends the
stripped text to it; anything else is skipped. -/
def extractLoop : List Para → Option OpenPT → List ProductType
  | [], cur => closePT cur
  | p :: ps, cur =>
    if p.style = headingStyles .sect then closePT cur
    else if isStyleMatch p.style .product_type then
      closePT cur ++ extractLoop ps (some ⟨strip p.text, [], none⟩)
    else if isStyleMatch p.style .manufacturer && cur.isSome then
      match cur with
      | some o =>
        if isTextMatch p.text manufacturerHeadingVariations then
          extractLoop ps
            (some ⟨o.name, o.closed ++ o.curMan.toList, some ⟨strip p.text, []⟩⟩)
        else extractLoop ps (some o)
      | none => extractLoop ps none
    else if isStyleMatch p.style .description && manOpen cur then
      match cur with
      | some o =>
        match o.curMan with
        | some m =>
          extractLoop ps
            (some ⟨o.name, o.closed, some ⟨m.name, m.descriptions ++ [strip p.text]⟩⟩)
        | none => extractLoop ps (some o)
      | none => extractLoop ps none
    else extractLoop ps cur

/-- `DocumentParser._extract_product_types`: paragraphs with index at most
the marker's are skipped, then the loop runs with no open product type. -/
def extractProductTypes (paras : List Para) (m : SectionMarker) :
    List ProductType :=
  extractLoop (paras.drop (m.index + 1)) none

/-- The parse result of one document (`document_data` in
`DocumentParser.parse_document`). -/
structure Tree where
  filename : List Char
  products_section : Option SectionMarker
  product_types : List ProductType
deriving DecidableEq

/-- `DocumentParser.parse_document`.  The ingestion boundary (file
validation plus `python-docx` loading) is modelled by the `Option`
argument: `none` stands for an unreadable or invalid document, in which
case the source returns its distinguished failure value `{}`, modelled as
`none`; a readable document always yields a tree. -/
def parseDocument (ingest : Option (List Para)) (filename : List Char) :
    Option Tree :=
  match ingest with
  | none => none
  | some paras =>
    match findProductsSection paras with
    | none => some ⟨filename, none, []⟩
    | some m => some ⟨filename, some m, extractProductTypes paras m⟩

/-- One output row (`TaskRow`), with the eight Asana CSV columns of
`CSVGenerator`. -/
structure TaskRow where
  taskName : List Char
  sectionColumn : List Char
  assignee : List Char
  dueDate : List Char
  priority : List Char
  notes : List Char
  parentTask : List Char
  project : List Char
deriving DecidableEq

/-- Default `asana.default_section` configuration. -/
def defaultSection : List Char := "CA Submittal Check-list".toList

/-- Default `asana.default_project` configuration (the empty string). -/
def defaultProject : List Char := []

/-- The root row emitted first by `CSVGenerator._create_csv_data`. -/
def rootRow (filename : List Char) : TaskRow :=
  ⟨sanitize filename, defaultSection, [], [], [],
   "Root task for document".toList, [], defaultProject⟩

/-- Python's `"\n".join(descriptions) if descriptions else ""`. -/
def joinDescriptions (ds : List (List Char)) : List Char :=
  if ds = [] then [] else List.intercalate "\n".toList ds

/-- The `notes` value composed for a manufacturer row: name, blank line and
joined descriptions when the joined description text is non-empty, the
name alone otherwise (Python tests the truthiness of `description_text`,
not of the `descriptions` list). -/
def mkNotes (m : Manufacturer) : List Char :=
  if joinDescriptions m.descriptions ≠ [] then
    m.name ++ "\n\n".toList ++ joinDescriptions m.descriptions
  else m.name

/-- A manufacturer row of `_create_csv_data`, parented to its product
type's name. -/
def manufacturerRow (ptName : List Char) (m : Manufacturer) : TaskRow :=
  ⟨sanitize m.name, defaultSection, [], [], [], sanitize (mkNotes m),
   sanitize ptName, defaultProject⟩

/-- A product-type row of `_create_csv_data`, parented to the document
filename. -/
def productRow (filename : List Char) (pt : ProductType) : TaskRow :=
  ⟨sanitize pt.name, defaultSection, [], [], [], [], sanitize filename,
   defaultProject⟩

/-- Rows contributed by one product type: nothing when its name is empty
(the `continue` in the source, which also skips its manufacturers);
otherwise its own row followed by one row per manufacturer with a
non-empty name. -/
def ptRows (filename : List Char) (pt : ProductType) : List TaskRow :=
  if pt.name = [] then []
  else
    productRow filename pt ::
      pt.manufacturers.flatMap
        (fun m => if m.name = [] then [] else [manufacturerRow pt.name m])

/-- `CSVGenerator._create_csv_data`: the root row followed by the rows of
every product type in order. -/
def createCsvData (t : Tree) : List TaskRow :=
  rootRow t.filename :: t.product_types.flatMap (ptRows t.filename)

/-- `validate_csv_data` from `src/utils/validator.py`, specialised to rows
of the `TaskRow` shape: the per-row required-column check always passes
because every generated row carries all eight columns, so only the
non-emptiness check remains. -/
def validateCsvData (rows : List TaskRow) : Bool := !rows.isEmpty

/-- `CSVGenerator.generate_csv`.  A `some` result models the successful
write of exactly those rows; `none` models the `return False` paths, on
which the source returns before any row data is handed to the writer. -/
def generateCsv (t : Tree) : Option (List TaskRow) :=
  if t.filename = [] then none
  else
    if validateCsvData (createCsvData t) then some (createCsvData t)
    else none

/-- Parent-linkage accumulator: `chainOK avail rows` holds when every row's
parent name is available at its position, names of earlier rows becoming
available as the list is traversed. -/
def chainOK (avail : List (List Char)) : List TaskRow → Prop
  | [] => True
  | r :: rs => r.parentTask ∈ avail ∧ chainOK (r.taskName :: avail) rs

/-- Adjacency predicate used for the sanitizer's output: no two neighbouring
characters are both whitespace. -/
def NW (a b : Char) : Prop := ¬(isWS a = true ∧ isWS b = true)

/-- Demo paragraph list with a single qualifying section caption. -/
def demoOneQual : List Para :=
  [⟨"Introduction".toList, "Heading 1".toList⟩,
   ⟨"Products".toList, "Heading 1".toList⟩,
   ⟨"Product Type 1".toList, "Heading 2".toList⟩]

/-- Demo paragraph list whose third paragraph has a style that tolerantly
matches the section role ("heading 1", lowercase) but is not exactly equal
to the configured nominal label "Heading 1". -/
def demoLowerSect : List Para :=
  [⟨"Products".toList, "Heading 1".toList⟩,
   ⟨"Products".toList, "Heading 1".toList⟩,
   ⟨"X".toList, "heading 1".toList⟩,
   ⟨"PT".toList, "Heading 2".toList⟩]

/-- Demo tree with one product type, one manufacturer, one description. -/
def demoTree : Tree :=
  ⟨"Doc".toList, none,
   [⟨"P".toList, [⟨"Manufacturer: A".toList, ["D".toList]⟩]⟩]⟩

/-- Demo tree whose filename is a single space: non-empty, but sanitized to
the empty string. -/
def demoWsName : Tree :=
  ⟨" ".toList, none, [⟨"a".toList, []⟩]⟩

/-- Demo tree used to witness the row-linkage theorem. -/
def demoLinked : Tree :=
  ⟨"Doc".toList, none,
   [⟨"P".toList, [⟨"M".toList, []⟩]⟩]⟩

theorem mem_collapseAux {c : Char} :
    ∀ (l : List Char) (b : Bool), c ∈ collapseAux b l →
      c = ' ' ∨ (c ∈ l ∧ isWS c = false) := by
  intro l
  induction l with
  | nil => intro b hc; simp [collapseAux] at hc
  | cons p ps ih =>
    intro b hc
    by_cases hw : isWS p = true
    · cases b with
      | true =>
        rw [show collapseAux true (p :: ps) = collapseAux true ps by
          simp [collapseAux, hw]] at hc
        rcases ih true hc with h | ⟨hm, hns⟩
        · exact Or.inl h
        · exact Or.inr ⟨List.mem_cons_of_mem _ hm, hns⟩
      | false =>
        rw [show collapseAux false (p :: ps) = ' ' :: collapseAux true ps by
          simp [collapseAux, hw]] at hc
        rcases List.mem_cons.mp hc with h | h
        · exact Or.inl h
        · rcases ih true h with h | ⟨hm, hns⟩
          · exact Or.inl h
          · exact Or.inr ⟨List.mem_cons_of_mem _ hm, hns⟩
    · rw [show collapseAux b (p :: ps) = p :: collapseAux false ps by
        simp [collapseAux, hw]] at hc
      rcases List.mem_cons.mp hc with h | h
      · subst h
        exact Or.inr ⟨List.mem_cons_self .., by simpa using hw⟩
      · rcases ih false h with h | ⟨hm, hns⟩
        · exact Or.inl h
        · exact Or.inr ⟨List.mem_cons_of_mem _ hm, hns⟩

theorem head_collapseAux_true :
    ∀ (l : List Char) {c : Char},
      (collapseAux true l).head? = some c → isWS c = false := by
  intro l
  induction l with
  | nil => intro c h; simp [collapseAux] at h
  | cons p ps ih =>
    intro c h
    by_cases hw : isWS p = true
    · rw [show collapseAux true (p :: ps) = collapseAux true ps by
        simp [collapseAux, hw]] at h
      exact ih h
    · rw [show collapseAux true (p :: ps) = p :: collapseAux false ps by
        simp [collapseAux, hw]] at h
      have : p = c := by simpa using h
      subst this
      simpa using hw

theorem chain_collapseAux :
    ∀ (l : List Char) (b : Bool), List.Chain' NW (collapseAux b l) := by
  intro l
  induction l with
  | nil => intro b; simp [collapseAux]
  | cons p ps ih =>
    intro b
    by_cases hw : isWS p = true
    · cases b with
      | true =>
        rw [show collapseAux true (p :: ps) = collapseAux true ps by
          simp [collapseAux, hw]]
        exact ih true
      | false =>
        rw [show collapseAux false (p :: ps) = ' ' :: collapseAux true ps by
          simp [collapseAux, hw]]
        refine List.chain'_cons'.mpr ⟨?_, ih true⟩
        intro y hy
        have hns : isWS y = false :=
          head_collapseAux_true ps (Option.mem_def.mp hy)
        intro hand
        rw [hns] at hand
        exact absurd hand.2 (by decide)
    · rw [show collapseAux b (p :: ps) = p :: collapseAux false ps by
        simp [collapseAux, hw]]
      refine List.chain'_cons'.mpr ⟨?_, ih false⟩
      exact fun y _ hand => hw hand.1

theorem mem_escQ {c : Char} {l : List Char} (h : c ∈ escQ l) :
    c = '"' ∨ c ∈ l := by
  rcases List.mem_flatMap.mp h with ⟨a, ha, hc⟩
  by_cases hq : a = '"'
  · rw [if_pos hq] at hc
    left
    simpa using (by simpa using hc : c = '"' ∨ c = '"').elim id id
  · rw [if_neg hq] at hc
    right
    have : c = a := by simpa using hc
    exact this ▸ ha

theorem head_escQ :
    ∀ {l : List Char} {c : Char},
      (escQ l).head? = some c → c = '"' ∨ l.head? = some c := by
  intro l c h
  cases l with
  | nil => simp [escQ] at h
  | cons a as =>
    by_cases hq : a = '"'
    · left
      rw [show escQ (a :: as) = '"' :: '"' :: escQ as by
        simp [escQ, hq]] at h
      simpa using h.symm
    · right
      rw [show escQ (a :: as) = a :: escQ as by
        simp [escQ, hq]] at h
      simpa using h

theorem chain_escQ :
    ∀ {l : List Char}, List.Chain' NW l → List.Chain' NW (escQ l) := by
  intro l
  induction l with
  | nil => intro _; simp [escQ]
  | cons a as ih =>
    intro h
    have htail : List.Chain' NW as := (List.chain'_cons'.mp h).2
    have hhead : ∀ y ∈ as.head?, NW a y := (List.chain'_cons'.mp h).1
    by_cases hq : a = '"'
    · rw [show escQ (a :: as) = '"' :: '"' :: escQ as by simp [escQ, hq]]
      refine List.chain'_cons'.mpr ⟨?_, List.chain'_cons'.mpr ⟨?_, ih htail⟩⟩
      · exact fun y _ hand => absurd hand.1 (by decide)
      · exact fun y _ hand => absurd hand.1 (by decide)
    · rw [show escQ (a :: as) = a :: escQ as by simp [escQ, hq]]
      refine List.chain'_cons'.mpr ⟨?_, ih htail⟩
      intro y hy
      rcases head_escQ (Option.mem_def.mp hy) with h1 | h2
      · subst h1
        exact fun hand => absurd hand.2 (by decide)
      · exact hhead y (Option.mem_def.mpr h2)

theorem head_dropWhile {p : Char → Bool} :
    ∀ {l : List Char} {c : Char},
      (List.dropWhile p l).head? = some c → p c = false := by
  intro l
  induction l with
  | nil => intro c h; simp at h
  | cons a as ih =>
    intro c h
    by_cases hp : p a = true
    · rw [List.dropWhile_cons, if_pos hp] at h
      exact ih h
    · rw [List.dropWhile_cons, if_neg hp] at h
      have : a = c := by simpa using h
      subst this
      simpa using hp

theorem strip_subset {l : List Char} : strip l ⊆ l := by
  intro c hc
  unfold strip at hc
  rw [List.mem_reverse] at hc
  have h1 := (List.dropWhile_suffix isWS).subset hc
  rw [List.mem_reverse] at h1
  exact (List.dropWhile_suffix isWS).subset h1

theorem chain_strip {l : List Char} (h : List.Chain' NW l) :
    List.Chain' NW (strip l) := by
  have hsymm : ∀ a b : Char, NW a b → flip NW a b :=
    fun a b hab hand => hab ⟨hand.2, hand.1⟩
  have h1 : List.Chain' NW (l.dropWhile isWS) :=
    h.suffix (List.dropWhile_suffix isWS)
  have h2 : List.Chain' NW (l.dropWhile isWS).reverse := by
    rw [List.chain'_reverse]
    exact h1.imp hsymm
  have h3 : List.Chain' NW ((l.dropWhile isWS).reverse.dropWhile isWS) :=
    h2.suffix (List.dropWhile_suffix isWS)
  unfold strip
  rw [List.chain'_reverse]
  exact h3.imp hsymm

theorem head_strip {l : List Char} {c : Char}
    (h : (strip l).head? = some c) : isWS c = false := by
  unfold strip at h
  rw [List.head?_reverse] at h
  obtain ⟨t, ht⟩ := List.dropWhile_suffix (l := (l.dropWhile isWS).reverse) isWS
  have hlast : ((l.dropWhile isWS).reverse).getLast? = some c := by
    rw [← ht, List.getLast?_append, h]
    rfl
  rw [List.getLast?_reverse] at hlast
  exact head_dropWhile hlast

theorem getLast_strip {l : List Char} {c : Char}
    (h : (strip l).getLast? = some c) : isWS c = false := by
  unfold strip at h
  rw [List.getLast?_reverse] at h
  exact head_dropWhile h

theorem sanitize_ws_mem {s : List Char} {c : Char}
    (hc : c ∈ sanitize s) (hw : isWS c = true) : c = ' ' := by
  unfold sanitize at hc
  by_cases hs : s = []
  · rw [if_pos hs] at hc
    simp at hc
  · rw [if_neg hs] at hc
    rcases mem_escQ (strip_subset hc) with h | h
    · subst h
      exact absurd hw (by decide)
    · rcases mem_collapseAux _ _ h with h | ⟨_, hns⟩
      · exact h
      · rw [hns] at hw
        exact absurd hw (by simp)

theorem sanitize_chain (s : List Char) : List.Chain' NW (sanitize s) := by
  unfold sanitize
  by_cases hs : s = []
  · rw [if_pos hs]; simp
  · rw [if_neg hs]
    exact chain_strip (chain_escQ (chain_collapseAux s false))

theorem sanitize_head {s : List Char} {c : Char}
    (h : (sanitize s).head? = some c) : isWS c = false := by
  unfold sanitize at h
  by_cases hs : s = []
  · rw [if_pos hs] at h; simp at h
  · rw [if_neg hs] at h
    exact head_strip h

theorem sanitize_getLast {s : List Char} {c : Char}
    (h : (sanitize s).getLast? = some c) : isWS c = false := by
  unfold sanitize at h
  by_cases hs : s = []
  · rw [if_pos hs] at h; simp at h
  · rw [if_neg hs] at h
    exact getLast_strip h

theorem escQ_eq_self : ∀ {l : List Char}, '"' ∉ l → escQ l = l := by
  intro l
  induction l with
  | nil => intro _; rfl
  | cons a as ih =>
    intro h
    have ha : ¬(a = '"') := fun e => h (by rw [e]; exact List.mem_cons_self ..)
    have has : '"' ∉ as := fun hm => h (List.mem_cons_of_mem _ hm)
    rw [show escQ (a :: as) = a :: escQ as by simp [escQ, ha]]
    exact congrArg (List.cons a) (ih has)

theorem collapseAux_eq_self :
    ∀ (l : List Char),
      List.Chain' NW l → (∀ c ∈ l, isWS c = true → c = ' ') →
      (collapseAux false l = l ∧
        ((∀ c, l.head? = some c → isWS c = false) → collapseAux true l = l)) := by
  intro l
  induction l with
  | nil => intro _ _; exact ⟨rfl, fun _ => rfl⟩
  | cons a as ih =>
    intro hch hmem
    have htail : List.Chain' NW as := (List.chain'_cons'.mp hch).2
    have hhead : ∀ y ∈ as.head?, NW a y := (List.chain'_cons'.mp hch).1
    have hmem' : ∀ c ∈ as, isWS c = true → c = ' ' :=
      fun c hc => hmem c (List.mem_cons_of_mem _ hc)
    obtain ⟨ihf, iht⟩ := ih htail hmem'
    constructor
    · by_cases hw : isWS a = true
      · have ha : a = ' ' := hmem a (List.mem_cons_self ..) hw
        have hastail : ∀ c, as.head? = some c → isWS c = false := by
          intro c hc
          cases hbc : isWS c with
          | false => rfl
          | true => exact absurd ⟨hw, hbc⟩ (hhead c (Option.mem_def.mpr hc))
        rw [show collapseAux false (a :: as) = ' ' :: collapseAux true as by
          simp [collapseAux, hw]]
        rw [iht hastail, ha]
      · rw [show collapseAux false (a :: as) = a :: collapseAux false as by
          simp [collapseAux, hw]]
        rw [ihf]
    · intro hh
      have hw : isWS a = false := hh a rfl
      rw [show collapseAux true (a :: as) = a :: collapseAux false as by
        simp [collapseAux, hw]]
      rw [ihf]

theorem dropWhile_eq_self_of_head {p : Char → Bool} :
    ∀ {l : List Char}, (∀ c, l.head? = some c → p c = false) →
      List.dropWhile p l = l := by
  intro l h
  cases l with
  | nil => rfl
  | cons a as =>
    have := h a rfl
    rw [List.dropWhile_cons, if_neg (by simp [this])]

theorem strip_eq_self {l : List Char}
    (h1 : ∀ c, l.head? = some c → isWS c = false)
    (h2 : ∀ c, l.getLast? = some c → isWS c = false) : strip l = l := by
  unfold strip
  rw [dropWhile_eq_self_of_head h1]
  rw [dropWhile_eq_self_of_head
    (fun c hc => h2 c (by rwa [List.head?_reverse] at hc))]
  exact List.reverse_reverse l

theorem no_quote_collapse {s : List Char} (hq : '"' ∉ s) :
    '"' ∉ collapseAux false s := by
  intro hm
  rcases mem_collapseAux _ _ hm with h | ⟨hmem, _⟩
  · exact absurd h (by decide)
  · exact hq hmem

/-- C9 counterexample: `sanitize_string` is not idempotent, because the
quote-doubling step doubles the quotes again on the second pass: the input
consisting of a single double-quote character sanitizes to two quotes, and
sanitizing that again yields four. -/
theorem sanitize_not_idempotent_cex :
    sanitize (sanitize ['"']) ≠ sanitize ['"'] := by decide

/-- C9 (amended): `sanitize_string` is idempotent on every string that
contains no double-quote character; on such inputs the whitespace-collapse,
quote-doubling, and trimming steps are jointly a no-op the second time. -/
theorem sanitize_idem_of_no_quote :
    ∀ (s : List Char), '"' ∉ s → sanitize (sanitize s) = sanitize s := by
  intro s hq
  by_cases hs : s = []
  · subst hs; rfl
  · have hnc : '"' ∉ collapseAux false s := no_quote_collapse hq
    have hsan : sanitize s = strip (collapseAux false s) := by
      unfold sanitize
      rw [if_neg hs, escQ_eq_self hnc]
    have hqsan : '"' ∉ sanitize s := by
      rw [hsan]
      exact fun hm => hnc (strip_subset hm)
    by_cases ht : sanitize s = []
    · rw [ht]; rfl
    · have hcol : collapseAux false (sanitize s) = sanitize s :=
        (collapseAux_eq_self _ (sanitize_chain s)
          (fun c hc hw => sanitize_ws_mem hc hw)).1
      have hdef : sanitize (sanitize s) =
          if sanitize s = [] then []
          else strip (escQ (collapseAux false (sanitize s))) := rfl
      rw [hdef, if_neg ht, hcol, escQ_eq_self hqsan,
        strip_eq_self (fun c hc => sanitize_head hc)
          (fun c hc => sanitize_getLast hc)]

/-- C9 witness: idempotence at a concrete quote-free input. -/
theorem sanitize_idem_of_no_quote_w :
    sanitize (sanitize ("  a  b ".toList)) = sanitize ("  a  b ".toList) :=
  sanitize_idem_of_no_quote _ (by decide)

/-- C10: `sanitize_string` is total (a Lean function), maps the empty string
to the empty string, and its output contains no newline and no tab, has no
two adjacent spaces, and neither starts nor ends with a whitespace
character. -/
theorem sanitize_string_spec (s : List Char) :
    sanitize ([] : List Char) = []
    ∧ '\n' ∉ sanitize s
    ∧ '\t' ∉ sanitize s
    ∧ List.Chain' (fun a b => ¬(a = ' ' ∧ b = ' ')) (sanitize s)
    ∧ (∀ c, (sanitize s).head? = some c → isWS c = false)
    ∧ (∀ c, (sanitize s).getLast? = some c → isWS c = false) := by
  refine ⟨rfl, ?_, ?_, ?_, fun c hc => sanitize_head hc,
    fun c hc => sanitize_getLast hc⟩
  · intro hm
    exact absurd (sanitize_ws_mem hm (by decide)) (by decide)
  · intro hm
    exact absurd (sanitize_ws_mem hm (by decide)) (by decide)
  · exact (sanitize_chain s).imp
      (fun a b hab hand => hab ⟨by rw [hand.1]; decide, by rw [hand.2]; decide⟩)

/-- C10 witness: the output properties at a concrete input. -/
theorem sanitize_string_spec_w :
    '\n' ∉ sanitize ("a\n\nb\tc ".toList) :=
  (sanitize_string_spec ("a\n\nb\tc ".toList)).2.1

theorem findAux_eq :
    ∀ (ps : List Para) (i cnt : Nat), cnt ≤ 1 →
      findAux i cnt ps =
        ((List.enumFrom i ps).filter (fun x => qualifies x.2))[1 - cnt]?.map
          (fun x => ⟨x.1, strip x.2.text⟩) := by
  intro ps
  induction ps with
  | nil => intro i cnt _; simp [findAux, List.enumFrom]
  | cons p ps ih =>
    intro i cnt hcnt
    have henum : List.enumFrom i (p :: ps) =
        (i, p) :: List.enumFrom (i + 1) ps := rfl
    rw [henum]
    by_cases hq : qualifies p = true
    · rw [List.filter_cons_of_pos (by simpa using hq)]
      cases cnt with
      | zero =>
        rw [show findAux i 0 (p :: ps) = findAux (i + 1) 1 ps by
          simp [findAux, hq]]
        rw [ih (i + 1) 1 (by norm_num)]
        simp
      | succ n =>
        have hn : n = 0 := by omega
        subst hn
        rw [show findAux i 1 (p :: ps) = some ⟨i, strip p.text⟩ by
          simp [findAux, hq]]
        simp
    · rw [List.filter_cons_of_neg (by simpa using hq)]
      rw [show findAux i cnt (p :: ps) = findAux (i + 1) cnt ps by
        simp [findAux, hq]]
      exact ih (i + 1) cnt hcnt

/-- C1: the marker chosen by `_find_products_section` is exactly the second
paragraph (in document order) whose style matches the section role and
whose text matches the products-caption vocabulary, and its recorded
position is that paragraph's index; when fewer than two such paragraphs
exist no marker is selected and the parsed tree has an empty product-type
list. -/
theorem products_marker_spec (paras : List Para) (filename : List Char) :
    findProductsSection paras =
      ((paras.enum.filter (fun x => qualifies x.2))[1]?).map
        (fun x => ⟨x.1, strip x.2.text⟩)
    ∧ ((paras.enum.filter (fun x => qualifies x.2)).length < 2 →
        parseDocument (some paras) filename = some ⟨filename, none, []⟩) := by
  have h0 : findProductsSection paras =
      ((paras.enum.filter (fun x => qualifies x.2))[1]?).map
        (fun x => ⟨x.1, strip x.2.text⟩) := by
    have h := findAux_eq paras 0 0 (by norm_num)
    simpa [findProductsSection, List.enum] using h
  refine ⟨h0, ?_⟩
  intro hlen
  have hnone : (paras.enum.filter (fun x => qualifies x.2))[1]? = none :=
    List.getElem?_eq_none (by omega)
  have hfind : findProductsSection paras = none := by
    rw [h0, hnone]; rfl
  simp [parseDocument, hfind]

/-- C1 witness: with exactly one qualifying caption no marker is selected
and the tree's product-type list is empty. -/
theorem products_marker_spec_w :
    parseDocument (some demoOneQual) ("d".toList) =
      some ⟨"d".toList, none, []⟩
    ∧ findProductsSection demoOneQual =
      ((demoOneQual.enum.filter (fun x => qualifies x.2))[1]?).map
        (fun x => ⟨x.1, strip x.2.text⟩) :=
  ⟨(products_marker_spec demoOneQual ("d".toList)).2 (by decide),
   (products_marker_spec demoOneQual ("d".toList)).1⟩

/-- C2 counterexample: the termination test of `_extract_product_types` is
the exact, case-sensitive comparison `para.style.name ==
self.heading_styles["section"]`, not the tolerant `_is_style_match` used
everywhere else: a paragraph styled "heading 1" tolerantly matches the
section role, yet extraction continues past it and still collects the
following product type instead of ending with an empty list. -/
theorem section_termination_cex :
    isStyleMatch ("heading 1".toList) .sect = true
    ∧ parseDocument (some demoLowerSect) ("d".toList) =
        some ⟨"d".toList, some ⟨1, "Products".toList⟩, [⟨"PT".toList, []⟩]⟩
    ∧ [ProductType.mk ("PT".toList) []] ≠ ([] : List ProductType) :=
  ⟨by decide, by decide, by decide⟩

/-- C2 (amended): during tree construction, a paragraph ends product-type
accumulation (regardless of its text) exactly when its style name is
case-sensitively equal to the configured nominal section label; a paragraph
whose style is not that exact label and matches no other role is skipped
rather than terminating. -/
theorem section_termination_exact (p : Para) (ps : List Para)
    (cur : Option OpenPT) :
    (p.style = headingStyles .sect →
      extractLoop (p :: ps) cur = closePT cur)
    ∧ (p.style ≠ headingStyles .sect →
       isStyleMatch p.style .product_type = false →
       isStyleMatch p.style .manufacturer = false →
       isStyleMatch p.style .description = false →
       extractLoop (p :: ps) cur = extractLoop ps cur) := by
  constructor
  · intro h
    simp [extractLoop, h]
  · intro h hpt hman hdesc
    simp [extractLoop, h, hpt, hman, hdesc]

/-- C2 witness: the exact label stops the pass at a concrete input, the
tolerant lowercase variant does not. -/
theorem section_termination_exact_w :
    extractLoop [⟨"X".toList, "Heading 1".toList⟩]
        (some ⟨"P".toList, [], none⟩) =
      closePT (some ⟨"P".toList, [], none⟩) :=
  (section_termination_exact ⟨"X".toList, "Heading 1".toList⟩ []
      (some ⟨"P".toList, [], none⟩)).1 (by decide)

/-- C4 counterexample: a style label such as "h2 h3" matches both the
product-type and the manufacturer role; the branch order of the source
gives product-type precedence, so even with a product type open and a text
matching the manufacturer vocabulary the paragraph opens a new ProductType
and no Manufacturer is created anywhere. -/
theorem manufacturer_creation_cex :
    isStyleMatch ("h2 h3".toList) .manufacturer = true
    ∧ isTextMatch ("Manufacturer: X".toList) manufacturerHeadingVariations
        = true
    ∧ extractLoop [⟨"Manufacturer: X".toList, "h2 h3".toList⟩]
        (some ⟨"PT1".toList, [], none⟩) =
        [⟨"PT1".toList, []⟩, ⟨"Manufacturer: X".toList, []⟩]
    ∧ ([⟨"PT1".toList, []⟩, ⟨"Manufacturer: X".toList, []⟩] :
          List ProductType) ≠
        [⟨"PT1".toList, [⟨"Manufacturer: X".toList, []⟩]⟩] :=
  ⟨by decide, by decide, by decide, by decide⟩

/-- C4 (amended): for a paragraph whose style matches the manufacturer role
but not the product-type role (the product-type branch is checked first):
with a product type open, it opens a new Manufacturer appended to that
product type (becoming the current manufacturer) precisely when its text
matches the manufacturer-caption vocabulary, and changes nothing when the
text test fails; with no product type open it changes nothing. -/
theorem manufacturer_creation (p : Para) (ps : List Para) (o : OpenPT)
    (hman : isStyleMatch p.style .manufacturer = true)
    (hpt : isStyleMatch p.style .product_type = false) :
    (isTextMatch p.text manufacturerHeadingVariations = true →
      extractLoop (p :: ps) (some o) =
        extractLoop ps
          (some ⟨o.name, o.closed ++ o.curMan.toList,
            some ⟨strip p.text, []⟩⟩))
    ∧ (isTextMatch p.text manufacturerHeadingVariations = false →
      extractLoop (p :: ps) (some o) = extractLoop ps (some o))
    ∧ extractLoop (p :: ps) none = extractLoop ps none := by
  have hsec : p.style ≠ headingStyles .sect := by
    intro he
    rw [he] at hman
    exact absurd hman (by decide)
  refine ⟨?_, ?_, ?_⟩
  · intro htext
    simp [extractLoop, hsec, hpt, hman, htext]
  · intro htext
    simp [extractLoop, hsec, hpt, hman, htext]
  · simp [extractLoop, hsec, hpt, hman, manOpen]

/-- C4 witness: a plain "Heading 3" manufacturer caption opens a
manufacturer under the open product type. -/
theorem manufacturer_creation_w :
    extractLoop [⟨"Manufacturer: A".toList, "Heading 3".toList⟩]
        (some ⟨"P".toList, [], none⟩) =
      extractLoop []
        (some ⟨"P".toList, [], some ⟨"Manufacturer: A".toList, []⟩⟩) :=
  (manufacturer_creation ⟨"Manufacturer: A".toList, "Heading 3".toList⟩ []
      ⟨"P".toList, [], none⟩ (by decide) (by decide)).1 (by decide)

/-- C5 counterexample: a style label such as "h3 h4" matches both the
manufacturer and the description role; encountered with a product type open
but no manufacturer open, the paragraph is not dropped: the manufacturer
branch claims it and creates a new Manufacturer node. -/
theorem description_drop_cex :
    isStyleMatch ("h3 h4".toList) .description = true
    ∧ manOpen (some ⟨"PT1".toList, [], none⟩) = false
    ∧ extractLoop [⟨"Manufacturers: B".toList, "h3 h4".toList⟩]
        (some ⟨"PT1".toList, [], none⟩) =
        [⟨"PT1".toList, [⟨"Manufacturers: B".toList, []⟩]⟩]
    ∧ ([⟨"PT1".toList, [⟨"Manufacturers: B".toList, []⟩]⟩] :
          List ProductType) ≠ [⟨"PT1".toList, []⟩] :=
  ⟨by decide, by decide, by decide, by decide⟩

/-- C5 (amended): for a paragraph whose style matches the description role
and none of the earlier-checked roles (exact section label, product type,
manufacturer): while no manufacturer is open — in particular right after a
product type opened, which resets the current manufacturer — it is dropped
and attaches to nothing; while a manufacturer is open, its stripped text is
appended to that single most recently opened manufacturer. -/
theorem description_attachment (p : Para) (ps : List Para)
    (hdesc : isStyleMatch p.style .description = true)
    (hpt : isStyleMatch p.style .product_type = false)
    (hman : isStyleMatch p.style .manufacturer = false) :
    (∀ cur : Option OpenPT, manOpen cur = false →
      extractLoop (p :: ps) cur = extractLoop ps cur)
    ∧ (∀ (name : List Char) (closed : List Manufacturer) (m : Manufacturer),
      extractLoop (p :: ps) (some ⟨name, closed, some m⟩) =
        extractLoop ps
          (some ⟨name, closed,
            some ⟨m.name, m.descriptions ++ [strip p.text]⟩⟩)) := by
  have hsec : p.style ≠ headingStyles .sect := by
    intro he
    rw [he] at hdesc
    exact absurd hdesc (by decide)
  constructor
  · intro cur hopen
    cases cur with
    | none => simp [extractLoop, hsec, hpt, hman, manOpen]
    | some o =>
      cases hcm : o.curMan with
      | some m =>
        rw [show manOpen (some o) = o.curMan.isSome from rfl, hcm] at hopen
        simp at hopen
      | none =>
        simp [extractLoop, hsec, hpt, hman, manOpen, hcm]
  · intro name closed m
    simp [extractLoop, hsec, hpt, hman, hdesc, manOpen]

/-- C5 witness: a plain "Heading 4" description with no open manufacturer
is dropped. -/
theorem description_attachment_w :
    extractLoop [⟨"D1".toList, "Heading 4".toList⟩]
        (some ⟨"P".toList, [], none⟩) =
      extractLoop [] (some ⟨"P".toList, [], none⟩) :=
  (description_attachment ⟨"D1".toList, "Heading 4".toList⟩ []
      (by decide) (by decide) (by decide)).1
    (some ⟨"P".toList, [], none⟩) (by decide)

/-- C3 counterexample: the manufacturer row's `notes` value passes through
`sanitize_string`, which replaces every whitespace run — including the
blank line after the name and the newlines between description lines — by
a single space: for the demo tree the emitted notes are
"Manufacturer: A D", not the newline-separated composition the claim
requires. -/
theorem notes_newlines_cex :
    ((createCsvData demoTree).map TaskRow.notes)[2]? =
      some ("Manufacturer: A D".toList)
    ∧ ("Manufacturer: A D".toList : List Char) ≠
        "Manufacturer: A\n\nD".toList :=
  ⟨by decide, by decide⟩

/-- C3 (amended): for every manufacturer with a non-empty name inside a
product type with a non-empty name, the emitted row's notes field equals
`sanitize_string` applied to the composition of the manufacturer name, a
blank line and the description lines joined by newlines (the name alone
when the joined description text is empty); the internal newlines are
collapsed to single spaces by sanitation, not preserved. -/
theorem manufacturer_notes (t : Tree) (pt : ProductType) (m : Manufacturer)
    (hpt : pt ∈ t.product_types) (hm : m ∈ pt.manufacturers)
    (hptn : pt.name ≠ []) (hmn : m.name ≠ []) :
    manufacturerRow pt.name m ∈ createCsvData t
    ∧ (manufacturerRow pt.name m).notes = sanitize (mkNotes m)
    ∧ (joinDescriptions m.descriptions ≠ [] →
        mkNotes m = m.name ++ "\n\n".toList ++ joinDescriptions m.descriptions)
    ∧ (joinDescriptions m.descriptions = [] → mkNotes m = m.name)
    ∧ (manufacturerRow pt.name m).parentTask = sanitize pt.name
    ∧ '\n' ∉ (manufacturerRow pt.name m).notes := by
  refine ⟨?_, rfl, ?_, ?_, rfl, ?_⟩
  · unfold createCsvData
    refine List.mem_cons_of_mem _ ?_
    rw [List.mem_flatMap]
    refine ⟨pt, hpt, ?_⟩
    unfold ptRows
    rw [if_neg hptn]
    refine List.mem_cons_of_mem _ ?_
    rw [List.mem_flatMap]
    exact ⟨m, hm, by rw [if_neg hmn]; exact List.mem_singleton.mpr rfl⟩
  · intro h
    unfold mkNotes
    rw [if_pos h]
  · intro h
    unfold mkNotes
    rw [if_neg (fun hne => hne h)]
  · intro hmem
    exact absurd (sanitize_ws_mem hmem (by decide)) (by decide)

/-- C3 witness: the amended composition at the demo tree. -/
theorem manufacturer_notes_w :
    manufacturerRow ("P".toList) ⟨"Manufacturer: A".toList, ["D".toList]⟩ ∈
      createCsvData demoTree :=
  (manufacturer_notes demoTree
      ⟨"P".toList, [⟨"Manufacturer: A".toList, ["D".toList]⟩]⟩
      ⟨"Manufacturer: A".toList, ["D".toList]⟩
      (by decide) (by decide) (by decide) (by decide)).1

theorem chainOK_mono :
    ∀ {rs : List TaskRow} {A B : List (List Char)},
      A ⊆ B → chainOK A rs → chainOK B rs := by
  intro rs
  induction rs with
  | nil => intro A B _ _; trivial
  | cons r rs ih =>
    intro A B hsub h
    exact ⟨hsub h.1, ih (List.cons_subset_cons _ hsub) h.2⟩

theorem chainOK_append :
    ∀ {xs ys : List TaskRow} {A : List (List Char)},
      chainOK A xs → chainOK (xs.map TaskRow.taskName ++ A) ys →
      chainOK A (xs ++ ys) := by
  intro xs
  induction xs with
  | nil => intro ys A _ h2; simpa using h2
  | cons x xs ih =>
    intro ys A h1 h2
    refine ⟨h1.1, ?_⟩
    apply ih h1.2
    refine chainOK_mono ?_ h2
    intro a ha
    simp only [List.map_cons, List.cons_append, List.mem_cons,
      List.mem_append] at ha ⊢
    tauto

theorem chainOK_of_all :
    ∀ {rs : List TaskRow} {A : List (List Char)},
      (∀ r ∈ rs, r.parentTask ∈ A) → chainOK A rs := by
  intro rs
  induction rs with
  | nil => intro A _; trivial
  | cons r rs ih =>
    intro A h
    refine ⟨h r (List.mem_cons_self ..), ?_⟩
    exact chainOK_mono (fun a ha => List.mem_cons_of_mem _ ha)
      (ih (fun x hx => h x (List.mem_cons_of_mem _ hx)))

theorem chainOK_spec :
    ∀ (rs : List TaskRow) (A : List (List Char)),
      chainOK A rs → ∀ i (hi : i < rs.length),
        rs[i].parentTask ∈ A
        ∨ ∃ j, ∃ hj : j < rs.length, j < i ∧
            rs[j].taskName = rs[i].parentTask := by
  intro rs
  induction rs with
  | nil => intro A _ i hi; simp at hi
  | cons r rs ih =>
    intro A h i hi
    cases i with
    | zero => left; simpa using h.1
    | succ k =>
      have hk : k < rs.length := by simpa using hi
      rcases ih (r.taskName :: A) h.2 k hk with hmem | ⟨j, hj, hji, heq⟩
      · rcases List.mem_cons.mp hmem with he | hA
        · right
          refine ⟨0, by simp, Nat.succ_pos k, ?_⟩
          simpa using he.symm
        · left
          simpa using hA
      · right
        refine ⟨j + 1, by simpa using Nat.succ_lt_succ hj,
          Nat.succ_lt_succ hji, ?_⟩
        simpa using heq

theorem ptRows_parent {fn : List Char} :
    ∀ {pts : List ProductType} {r : TaskRow},
      r ∈ pts.flatMap (ptRows fn) →
      (r.parentTask = sanitize fn ∨
        ∃ pt ∈ pts, pt.name ≠ [] ∧ r.parentTask = sanitize pt.name) := by
  intro pts r h
  rcases List.mem_flatMap.mp h with ⟨pt, hpt, hr⟩
  unfold ptRows at hr
  by_cases hn : pt.name = []
  · rw [if_pos hn] at hr
    simp at hr
  · rw [if_neg hn] at hr
    rcases List.mem_cons.mp hr with he | hm
    · left
      rw [he]
      rfl
    · rcases List.mem_flatMap.mp hm with ⟨mf, hmf, hr2⟩
      by_cases hmn : mf.name = []
      · rw [if_pos hmn] at hr2
        simp at hr2
      · rw [if_neg hmn] at hr2
        right
        refine ⟨pt, hpt, hn, ?_⟩
        rw [List.mem_singleton.mp hr2]
        rfl

theorem chainOK_ptRows {fn : List Char} :
    ∀ (pts : List ProductType) (A : List (List Char)),
      sanitize fn ∈ A → chainOK A (pts.flatMap (ptRows fn)) := by
  intro pts
  induction pts with
  | nil => intro A _; trivial
  | cons pt pts ih =>
    intro A hA
    rw [List.flatMap_cons]
    apply chainOK_append
    · unfold ptRows
      by_cases hn : pt.name = []
      · rw [if_pos hn]; trivial
      · rw [if_neg hn]
        refine ⟨hA, ?_⟩
        apply chainOK_of_all
        intro r hr
        rcases List.mem_flatMap.mp hr with ⟨mf, hmf, hr2⟩
        by_cases hmn : mf.name = []
        · rw [if_pos hmn] at hr2
          simp at hr2
        · rw [if_neg hmn] at hr2
          rw [List.mem_singleton.mp hr2]
          exact List.mem_cons_self ..
    · exact ih _ (List.mem_append_right _ hA)

theorem chainOK_linkage (root : TaskRow) (body : List TaskRow)
    (hchain : chainOK [root.taskName] body) :
    ∀ i (hi : i < (root :: body).length), 0 < i →
      ∃ j, ∃ hj : j < (root :: body).length, j < i ∧
        (root :: body)[j].taskName = (root :: body)[i].parentTask := by
  intro i hi h0
  cases i with
  | zero => exact absurd h0 (by omega)
  | succ k =>
    have hk : k < body.length := by simpa using hi
    rcases chainOK_spec body _ hchain k hk with hmem | ⟨j, hj, hji, heq⟩
    · refine ⟨0, by simp, Nat.succ_pos k, ?_⟩
      have hm := List.mem_singleton.mp hmem
      simpa using hm.symm
    · refine ⟨j + 1, by simpa using Nat.succ_lt_succ hj,
        Nat.succ_lt_succ hji, ?_⟩
      simpa using heq

/-- C6 counterexample: the non-empty, all-whitespace document name " "
sanitizes to the empty string, so the product row's parent field is empty
just like the root's — the sequence does not begin with exactly one row
whose parent field is empty, although the document name is non-empty. -/
theorem row_linkage_cex :
    demoWsName.filename ≠ []
    ∧ (createCsvData demoWsName).map TaskRow.parentTask = [[], []] :=
  ⟨by decide, by decide⟩

/-- C6 (amended): for every tree whose document name sanitizes to a
non-empty string and all of whose non-empty product-type names sanitize to
non-empty strings, the flattened sequence begins with the root row, whose
parent field is empty, every later row's parent field is non-empty (so the
root is the unique empty-parent row), and every later row's parent value
equals the task name of an earlier row. -/
theorem row_linkage (t : Tree)
    (hf : sanitize t.filename ≠ [])
    (hp : ∀ pt ∈ t.product_types, pt.name ≠ [] → sanitize pt.name ≠ []) :
    (createCsvData t).head? = some (rootRow t.filename)
    ∧ (rootRow t.filename).parentTask = []
    ∧ (∀ i (hi : i < (createCsvData t).length), 0 < i →
        (createCsvData t)[i].parentTask ≠ [])
    ∧ (∀ i (hi : i < (createCsvData t).length), 0 < i →
        ∃ j, ∃ hj : j < (createCsvData t).length, j < i ∧
          (createCsvData t)[j].taskName = (createCsvData t)[i].parentTask) := by
  have hbody : chainOK [sanitize t.filename]
      (t.product_types.flatMap (ptRows t.filename)) :=
    chainOK_ptRows _ _ (List.mem_singleton.mpr rfl)
  refine ⟨rfl, rfl, ?_, ?_⟩
  · intro i hi h0
    cases i with
    | zero => exact absurd h0 (by omega)
    | succ k =>
      have hk : k < (t.product_types.flatMap (ptRows t.filename)).length := by
        have hlen : (createCsvData t).length =
            (t.product_types.flatMap (ptRows t.filename)).length + 1 := by
          simp [createCsvData]
        omega
      have heq : (createCsvData t)[k + 1] =
          (t.product_types.flatMap (ptRows t.filename))[k] := by
        simp [createCsvData]
      rw [heq]
      rcases ptRows_parent (List.getElem_mem hk) with hpar | ⟨pt, hptm, hne, hpar⟩
      · rw [hpar]; exact hf
      · rw [hpar]; exact hp pt hptm hne
  · exact chainOK_linkage (rootRow t.filename) _ hbody

/-- C6 witness: linkage at a concrete well-named tree. -/
theorem row_linkage_w :
    (createCsvData demoLinked).head? = some (rootRow ("Doc".toList)) :=
  (row_linkage demoLinked (by decide) (by decide)).1

/-- C7: when the document name is empty, CSV generation reports failure
and produces no rows — the source returns `False` before any row data is
built or handed to the file writer. -/
theorem generate_csv_empty_name (t : Tree) (h : t.filename = []) :
    generateCsv t = none := by
  unfold generateCsv
  rw [if_pos h]

/-- C7 witness: failure at a concrete tree with empty name. -/
theorem generate_csv_empty_name_w :
    generateCsv ⟨[], none, []⟩ = none :=
  generate_csv_empty_name ⟨[], none, []⟩ rfl

/-- C8: an unreadable or invalid document yields the distinguished failure
value with no tree; a readable document always yields a tree, with an
empty product-type list when no marker qualifies; and any tree with an
empty product-type list flattens to exactly the single root row — so the
two outcomes are distinguishable by the caller. -/
theorem parse_failure_vs_empty (fn : List Char) :
    parseDocument none fn = none
    ∧ (∀ paras, (parseDocument (some paras) fn).isSome = true)
    ∧ (∀ paras, findProductsSection paras = none →
        parseDocument (some paras) fn = some ⟨fn, none, []⟩)
    ∧ (∀ t : Tree, t.product_types = [] →
        createCsvData t = [rootRow t.filename]) := by
  refine ⟨rfl, ?_, ?_, ?_⟩
  · intro paras
    cases hfind : findProductsSection paras with
    | none => simp [parseDocument, hfind]
    | some m => simp [parseDocument, hfind]
  · intro paras h
    simp [parseDocument, h]
  · intro t h
    unfold createCsvData
    rw [h]
    rfl

/-- C8 witness: failure versus structural absence at concrete inputs. -/
theorem parse_failure_vs_empty_w :
    parseDocument (some demoOneQual) ("d".toList) =
      some ⟨"d".toList, none, []⟩
    ∧ parseDocument none ("d".toList) = none :=
  ⟨(parse_failure_vs_empty ("d".toList)).2.2.1 demoOneQual (by decide),
   (parse_failure_vs_empty ("d".toList)).1⟩

end Docx2Asana
